import Mathlib

/-!
Verification development for the dlc-demo repository (Go).

The Go sources are shallowly embedded: byte strings become `List ℕ`
(each entry a byte value), satoshi amounts become `ℤ` (Go `int64`;
no overflow occurs at the magnitudes involved), transactions become a
record mirroring `wire.MsgTx`, and the cryptographic primitives that the
claims do not inspect (SHA-256, HASH160, transaction ids, serialized
secp256k1 point addition) are abstracted into an environment of opaque
functions that the theorems quantify over.  secp256k1 scalars become
`ZMod secpN` where `secpN` is the curve group order, and curve points an
arbitrary `ZMod secpN`-module (the secp256k1 group is cyclic of prime
order `secpN`, hence such a module).
-/

namespace DlcDemo

/-- Byte string, one `ℕ` per byte (as produced by Go `[]byte`). -/
abbrev Bytes := List ℕ

/-- Mirrors `wire.TxIn`: previous outpoint, sequence and witness stack. -/
structure WTxIn where
  prevTxid : ℕ
  prevVout : ℕ
  sequence : ℕ
  witness : List Bytes
  deriving Repr, DecidableEq

/-- Mirrors `wire.TxOut`: value in satoshi and pkScript. -/
structure WTxOut where
  value : ℤ
  pkScript : Bytes
  deriving Repr, DecidableEq

/-- Mirrors `wire.MsgTx`. -/
structure WTx where
  version : ℤ
  txIns : List WTxIn
  txOuts : List WTxOut
  lockTime : ℕ
  deriving Repr, DecidableEq

/-- Default sequence of `wire.NewTxIn` (`wire.MaxTxInSequenceNum`). -/
def maxSequence : ℕ := 0xffffffff

/-- Environment of hash/EC primitives the embedding leaves abstract:
`txHash` is `(*wire.MsgTx).TxHash()`, `hash160` is `btcutil.Hash160`,
`sha256` is `chainhash.HashB`, `ecAdd` is serialized-point addition
(parse two compressed points, `btcec.S256().Add`, re-serialize). -/
structure Env where
  txHash : WTx → ℕ
  hash160 : Bytes → Bytes
  sha256 : Bytes → Bytes
  ecAdd : Bytes → Bytes → Bytes

/-- Script opcodes used by the builders in `dlc.go`. -/
def OP_0 : ℕ := 0x00
def OP_2 : ℕ := 0x52
def OP_CHECKMULTISIG : ℕ := 0xae
def OP_IF : ℕ := 0x63
def OP_ELSE : ℕ := 0x67
def OP_ENDIF : ℕ := 0x68
def OP_CHECKSIG : ℕ := 0xac
def OP_CHECKSEQUENCEVERIFY : ℕ := 0xb2
def OP_DROP : ℕ := 0x75

/-- The script builder's `AddData` for payloads of at most 75 bytes:
a direct push, one length byte followed by the data. -/
def pushData (bs : Bytes) : Bytes := bs.length :: bs

/-- Mirrors `dlc.P2WPKHpkScript`: `OP_0` then a 20-byte push of
`HASH160(serialized pubkey)`. -/
def P2WPKHpkScript (E : Env) (pub : Bytes) : Bytes :=
  OP_0 :: pushData (E.hash160 pub)

/-- Mirrors `dlc.P2WSHpkScript`: `OP_0` then a 32-byte push of
`SHA256(script)`. -/
def P2WSHpkScript (E : Env) (script : Bytes) : Bytes :=
  OP_0 :: pushData (E.sha256 script)

/-- Mirrors `dlc.SettlementScript` (the builder's `AddInt64 144` emits the
two-byte script number `0x90 0x00`). -/
def SettlementScript (pub1 pub2 : Bytes) : Bytes :=
  OP_IF :: pushData pub1
    ++ [OP_ELSE, 0x02, 0x90, 0x00, OP_CHECKSEQUENCEVERIFY, OP_DROP]
    ++ pushData pub2 ++ [OP_ENDIF, OP_CHECKSIG]

/-- Mirrors the `dlc.Dlc` struct.  Pubkeys are compressed serializations
(`Option` because the Go fields are nilable pointers); the `height`,
`length` fields belong to the game-state variants of the package that
store the game directly on the `Dlc` (`SetGameConditions`), while
`gheight` records the height passed to `SetGame` of the `Game`-struct
variant. -/
structure Dlc where
  famta : ℤ
  famtb : ℤ
  fefee : ℤ
  sefee : ℤ
  sfeea : ℤ
  sfeeb : ℤ
  isA : Bool
  locktime : ℕ
  puba : Option Bytes
  pubb : Option Bytes
  atxins : List WTxIn
  btxins : List WTxIn
  txouta : Option WTxOut
  txoutb : Option WTxOut
  rsigna : Option Bytes
  rsignb : Option Bytes
  height : ℕ
  length : ℕ

/-- Mirrors `dlc.NewDlc` (remaining fields start at their zero values). -/
def NewDlc (famta famtb fefee sefee sfeea sfeeb : ℤ) (isA : Bool) : Dlc :=
  ⟨famta, famtb, fefee, sefee, sfeea, sfeeb, isA, 0,
   none, none, [], [], none, none, none, none, 0, 0⟩

/-- Mirrors `Dlc.SetGameConditions` of the variant embedded in
`demo.go`: stores height and length, and sets
`locktime = length + 144` (the `length` field, not the height). -/
def SetGameConditions (d : Dlc) (height length : ℕ) : Dlc :=
  { d with height := height, length := length, locktime := length + 144 }

/-- Mirrors `Dlc.SetGame` of the `Game`-struct variant in `dlc.go`:
`locktime = game height + 144`.  Only the locktime/height effect is
embedded here; the game itself is modelled separately. -/
def SetGame (d : Dlc) (gameHeight gameLength : ℕ) : Dlc :=
  { d with height := gameHeight, length := gameLength,
           locktime := gameHeight + 144 }

/-- Mirrors `Dlc.FundScript`: `nil` unless both pubkeys are set,
otherwise the 2-of-2 multisig script `OP_2 <pubA> <pubB> OP_2
OP_CHECKMULTISIG`. -/
def FundScript (d : Dlc) : Option Bytes :=
  match d.puba, d.pubb with
  | some pa, some pb =>
      some (OP_2 :: (pushData pa ++ pushData pb ++ [OP_2, OP_CHECKMULTISIG]))
  | _, _ => none

/-- Mirrors `Dlc.FundTx`: inputs are A's then B's; the fund output and
the two optional change outputs are added only when `FundScript` is not
`nil`. -/
def FundTx (E : Env) (d : Dlc) : WTx :=
  let outs :=
    match FundScript d with
    | none => []
    | some script =>
        ⟨d.famta + d.famtb + d.sfeea + d.sfeeb, P2WSHpkScript E script⟩ ::
          ((d.txouta.toList) ++ (d.txoutb.toList))
  ⟨2, d.atxins ++ d.btxins, outs, 0⟩

/-- Mirrors `Dlc.RefundTx`: one input spending fund output 0 with
sequence `0xffffffff - 1`, witness attached once both refund signatures
are known, the two P2WPKH outputs, and the contract's locktime. -/
def RefundTx (E : Env) (d : Dlc) : WTx :=
  let txid := E.txHash (FundTx E d)
  let wit : List Bytes :=
    match d.rsigna, d.rsignb with
    | some sa, some sb =>
        [[], sa, sb, (FundScript d).getD []]
    | _, _ => []
  ⟨2, [⟨txid, 0, maxSequence - 1, wit⟩],
   [⟨d.famta, P2WPKHpkScript E (d.puba.getD [])⟩,
    ⟨d.famtb, P2WPKHpkScript E (d.pubb.getD [])⟩],
   d.locktime⟩

/-- Rate data as stored in the table: per-position message bytes
(`none` embeds the Go `nil` slice, `some b` the singleton `[]byte{b}`
— the generator only ever stores those two shapes), and the payout
split.  The adaptor key is tracked separately (it is written later by
`SetOracleKeys`). -/
structure Rate where
  msgs : List (Option ℕ)
  amta : ℤ
  amtb : ℤ
  deriving Repr, DecidableEq

/-- Serialized-rate view used by the transaction builders: the rate
plus the serialized adaptor public key `rate.key`. -/
structure RateS where
  rate : Rate
  keyS : Bytes

/-- Mirrors `Dlc.SettlementTx`: `nil` when the constructing side's
share is not positive, otherwise one input spending fund output 0, a
P2WSH settlement output for the winner-combined key, and an optional
P2WPKH output for the other side.  (The Go code additionally caches the
txid on the rate when `d.isA ≠ isA`; that write is irrelevant to the
returned transaction.) -/
def settlementTxBuild (E : Env) (d : Dlc) (r : RateS) (isA : Bool) : WTx :=
  let val1 := if isA then r.rate.amta else r.rate.amtb
  let val2 := if isA then r.rate.amtb else r.rate.amta
  let pub1 := if isA then d.puba.getD [] else d.pubb.getD []
  let pub2 := if isA then d.pubb.getD [] else d.puba.getD []
  let txid := E.txHash (FundTx E d)
  let pub := E.ecAdd r.keyS pub1
  let out1 : WTxOut := ⟨val1, P2WSHpkScript E (SettlementScript pub pub2)⟩
  let outs := out1 :: (if 0 < val2 then [⟨val2, P2WPKHpkScript E pub2⟩] else [])
  ⟨2, [⟨txid, 0, maxSequence, []⟩], outs, 0⟩

def SettlementTx (E : Env) (d : Dlc) (r : RateS) (isA : Bool) : Option WTx :=
  if (if isA then r.rate.amta else r.rate.amtb) ≤ 0 then none
  else some (settlementTxBuild E d r isA)

/-- Mirrors `Dlc.SettlementToTx`: spend settlement output 0 to a
caller-supplied pkScript; fee is `(216 + len(pkScript)) * efee`; errors
when the settlement transaction is `nil` or the remaining value is
negative.  Returns the transaction, the caller's share and the
settlement script, as the Go function does. -/
def SettlementToTx (E : Env) (d : Dlc) (r : RateS) (isA : Bool)
    (pkScript : Bytes) (efee : ℤ) : Except String (WTx × ℤ × Bytes) :=
  let val1 := if isA then r.rate.amta else r.rate.amtb
  let pub1 := if isA then d.puba.getD [] else d.pubb.getD []
  let pub2 := if isA then d.pubb.getD [] else d.puba.getD []
  match SettlementTx E d r isA with
  | none => .error "settlement transaction is nil"
  | some stx =>
      let txid := E.txHash stx
      let fee := (216 + (pkScript.length : ℤ)) * efee
      let val := val1 - fee
      if val < 0 then .error "val is minus"
      else
        let pub := E.ecAdd r.keyS pub1
        let script := SettlementScript pub pub2
        .ok (⟨2, [⟨txid, 0, maxSequence, []⟩], [⟨val, pkScript⟩], 0⟩, val1, script)

/-- Mirrors the witness assembly of `User.SendSettlementTx`: an empty
element, then — when this side is A — its own signature followed by the
received one, otherwise the received signature followed by its own, and
finally the fund script. -/
def sendSettlementWitness (isA : Bool) (ownSig recvSig script : Bytes) :
    List Bytes :=
  [] :: ((if isA then [ownSig, recvSig] else [recvSig, ownSig]) ++ [script])

/-- C8: the 2-of-2 settlement witness is `[empty, sigA, sigB, fund_script]`
in both roles: when A broadcasts its own signature comes first, when B
broadcasts the received (A's) signature comes first, so the order is
always A-then-B. -/
theorem C8_settlement_witness_order (sigA sigB script : Bytes) :
    sendSettlementWitness true sigA sigB script = [[], sigA, sigB, script] ∧
    sendSettlementWitness false sigB sigA script = [[], sigA, sigB, script] := by
  constructor <;> rfl

/-- C10: with at most one party's pubkey set, `FundScript` is `nil` and
`FundTx` still returns (no error is possible) a transaction carrying
both sides' inputs and no outputs at all — no fund output and neither
change output. -/
theorem C10_fundtx_no_outputs (E : Env) (d : Dlc)
    (h : d.puba = none ∨ d.pubb = none) :
    FundScript d = none ∧
    (FundTx E d).txIns = d.atxins ++ d.btxins ∧
    (FundTx E d).txOuts = [] := by
  have hscript : FundScript d = none := by
    rcases h with h | h
    · unfold FundScript; rw [h]
    · unfold FundScript; rw [h]; cases d.puba <;> rfl
  exact ⟨hscript, rfl, by simp [FundTx, hscript]⟩

/-- Closed witness for C10: a concrete contract with only A's key set
and nonempty input lists on both sides. -/
theorem C10_fundtx_no_outputs_witness :
    ((NewDlc 1 1 1 1 1 1 true).puba = none ∨
      (NewDlc 1 1 1 1 1 1 true).pubb = none) ∧
    (FundScript (NewDlc 1 1 1 1 1 1 true) = none ∧
      (FundTx ⟨fun _ => 0, id, id, fun a _ => a⟩ (NewDlc 1 1 1 1 1 1 true)).txIns =
        (NewDlc 1 1 1 1 1 1 true).atxins ++ (NewDlc 1 1 1 1 1 1 true).btxins ∧
      (FundTx ⟨fun _ => 0, id, id, fun a _ => a⟩ (NewDlc 1 1 1 1 1 1 true)).txOuts = []) :=
  ⟨Or.inl rfl, C10_fundtx_no_outputs _ _ (Or.inl rfl)⟩

/-- C3: after `SetGameConditions(height := 100, length := 1)` the refund
transaction has every structural property the claim states — version 2,
a single input spending fund output 0 with sequence `0xFFFFFFFE`, the
P2WPKH outputs to A valued `famtA` and to B valued `famtB` — but its
locktime is `length + 144 = 145`, not `height + 144 = 244`: the
`SetGameConditions` variant shipped in `demo.go` sets
`locktime = length + 144`.  The `SetGame` variant in `dlc.go` does set
`height + 144` (last conjunct). -/
theorem C3_refund_tx_locktime_bug (E : Env) (pa pb : Bytes) :
    (RefundTx E (SetGameConditions
        { NewDlc 50 50 10 10 5 5 true with puba := some pa, pubb := some pb }
        100 1)).version = 2 ∧
    (RefundTx E (SetGameConditions
        { NewDlc 50 50 10 10 5 5 true with puba := some pa, pubb := some pb }
        100 1)).txIns =
      [⟨E.txHash (FundTx E (SetGameConditions
          { NewDlc 50 50 10 10 5 5 true with puba := some pa, pubb := some pb }
          100 1)), 0, 0xfffffffe, []⟩] ∧
    (RefundTx E (SetGameConditions
        { NewDlc 50 50 10 10 5 5 true with puba := some pa, pubb := some pb }
        100 1)).txOuts =
      [⟨50, P2WPKHpkScript E pa⟩, ⟨50, P2WPKHpkScript E pb⟩] ∧
    (RefundTx E (SetGameConditions
        { NewDlc 50 50 10 10 5 5 true with puba := some pa, pubb := some pb }
        100 1)).lockTime = 145 ∧
    (145 : ℕ) ≠ 100 + 144 ∧
    (RefundTx E (SetGame
        { NewDlc 50 50 10 10 5 5 true with puba := some pa, pubb := some pb }
        100 1)).lockTime = 100 + 144 := by
  refine ⟨rfl, rfl, rfl, rfl, by decide, rfl⟩

/-- C9: `SettlementToTx` returns, when the caller's share is positive
and covers the fee `(216 + len(pkScript))·efee`, a version-2
transaction with one input spending settlement output 0 and exactly one
output paying `pkScript` the value `share − fee`; it errors with
"settlement transaction is nil" when the share is not positive, and
with a negative-value error when the share is positive but smaller than
the fee. -/
theorem C9_settlement_forward_tx (E : Env) (d : Dlc) (r : RateS) (isA : Bool)
    (pkScript : Bytes) (efee : ℤ) :
    (0 < (if isA then r.rate.amta else r.rate.amtb) →
      0 ≤ (if isA then r.rate.amta else r.rate.amtb) -
          (216 + (pkScript.length : ℤ)) * efee →
      SettlementTx E d r isA = some (settlementTxBuild E d r isA) ∧
        SettlementToTx E d r isA pkScript efee =
          .ok (⟨2, [⟨E.txHash (settlementTxBuild E d r isA), 0, maxSequence, []⟩],
                [⟨(if isA then r.rate.amta else r.rate.amtb) -
                    (216 + (pkScript.length : ℤ)) * efee, pkScript⟩], 0⟩,
               (if isA then r.rate.amta else r.rate.amtb),
               SettlementScript
                 (E.ecAdd r.keyS (if isA then d.puba.getD [] else d.pubb.getD []))
                 (if isA then d.pubb.getD [] else d.puba.getD []))) ∧
    ((if isA then r.rate.amta else r.rate.amtb) ≤ 0 →
      SettlementToTx E d r isA pkScript efee =
        .error "settlement transaction is nil") ∧
    (0 < (if isA then r.rate.amta else r.rate.amtb) →
      (if isA then r.rate.amta else r.rate.amtb) -
          (216 + (pkScript.length : ℤ)) * efee < 0 →
      ∃ e, SettlementToTx E d r isA pkScript efee = .error e ∧
        e = "val is minus") := by
  refine ⟨?_, ?_, ?_⟩
  · intro hpos hval
    constructor
    · unfold SettlementTx
      simp only [if_neg (not_le.mpr hpos)]
    · unfold SettlementToTx SettlementTx
      simp only [if_neg (not_le.mpr hpos), if_neg (not_lt.mpr hval)]
  · intro hnp
    unfold SettlementToTx SettlementTx
    simp only [if_pos hnp]
  · intro hpos hval
    refine ⟨_, ?_, rfl⟩
    unfold SettlementToTx SettlementTx
    simp only [if_neg (not_le.mpr hpos), if_pos hval]

/-- Concrete environment used by closed witness statements. -/
def cenv : Env := ⟨fun _ => 0, id, id, fun a _ => a⟩

/-- Concrete contract used by closed witness statements. -/
def cdlc : Dlc :=
  { NewDlc 50 50 10 10 5 5 true with puba := some [2], pubb := some [3] }

/-- Closed witness for C9, exercising all three branches of the theorem
at concrete rates: share 1000, share 0 and share smaller than the fee. -/
theorem C9_settlement_forward_tx_witness :
    (SettlementTx cenv cdlc ⟨⟨[], 1000, 0⟩, []⟩ true =
        some (settlementTxBuild cenv cdlc ⟨⟨[], 1000, 0⟩, []⟩ true) ∧
      SettlementToTx cenv cdlc ⟨⟨[], 1000, 0⟩, []⟩ true [] 1 =
        .ok (⟨2, [⟨cenv.txHash (settlementTxBuild cenv cdlc ⟨⟨[], 1000, 0⟩, []⟩ true),
                0, maxSequence, []⟩], [⟨1000 - (216 + (([] : Bytes).length : ℤ)) * 1, []⟩], 0⟩,
             1000,
             SettlementScript (cenv.ecAdd [] (cdlc.puba.getD []))
               (cdlc.pubb.getD []))) ∧
    SettlementToTx cenv cdlc ⟨⟨[], 0, 7⟩, []⟩ true [] 1 =
      .error "settlement transaction is nil" ∧
    (∃ e, SettlementToTx cenv cdlc ⟨⟨[], 100, 0⟩, []⟩ true [] 1 = .error e ∧
      e = "val is minus") := by
  exact ⟨(C9_settlement_forward_tx cenv cdlc ⟨⟨[], 1000, 0⟩, []⟩ true [] 1).1
      (by decide) (by decide),
    (C9_settlement_forward_tx cenv cdlc ⟨⟨[], 0, 7⟩, []⟩ true [] 1).2.1
      (by decide),
    (C9_settlement_forward_tx cenv cdlc ⟨⟨[], 100, 0⟩, []⟩ true [] 1).2.2
      (by decide) (by decide)⟩

/-! Handshake status machine of `usr.go`. -/

/-- Status constants of `usr.go`. -/
def StatusNone : ℕ := 0
def StatusWaitForAccept : ℕ := 1
def StatusCanGetSign : ℕ := 2
def StatusCanGetAccept : ℕ := 10
def StatusWaitForSign : ℕ := 20
def StatusWaitSendTx : ℕ := 30

/-- The error text `fmt.Errorf("illegal status : %d", u.status)`. -/
def illegalStatus (st : ℕ) : String := "illegal status : " ++ toString st

/-- Mirrors the status behaviour of `User.GetOfferData`: guard
`StatusNone`; wallet funding / serialization steps are abstracted into
`ok`; the status is assigned `StatusWaitForAccept` only just before the
successful return. -/
def userGetOfferData (st : ℕ) (ok : Bool) : ℕ × Option String :=
  if st ≠ StatusNone then (st, some (illegalStatus st))
  else if ok then (StatusWaitForAccept, none)
  else (st, some "wallet.FundTx failed")

/-- Mirrors the status behaviour of `User.SetOfferData` (guard
`StatusNone`, success `StatusCanGetAccept`). -/
def userSetOfferData (st : ℕ) (ok : Bool) : ℕ × Option String :=
  if st ≠ StatusNone then (st, some (illegalStatus st))
  else if ok then (StatusCanGetAccept, none)
  else (st, some "deserialize failed")

/-- Mirrors the status behaviour of `User.GetAcceptData` (guard
`StatusCanGetAccept`, success `StatusWaitForSign`). -/
def userGetAcceptData (st : ℕ) (ok : Bool) : ℕ × Option String :=
  if st ≠ StatusCanGetAccept then (st, some (illegalStatus st))
  else if ok then (StatusWaitForSign, none)
  else (st, some "funding or signing failed")

/-- Mirrors the status behaviour of `User.SetAcceptData` (guard
`StatusWaitForAccept`, success `StatusCanGetSign`). -/
def userSetAcceptData (st : ℕ) (ok : Bool) : ℕ × Option String :=
  if st ≠ StatusWaitForAccept then (st, some (illegalStatus st))
  else if ok then (StatusCanGetSign, none)
  else (st, some "verification failed")

/-- Mirrors the status behaviour of `User.GetSignData` (guard
`StatusCanGetSign`, success `StatusWaitSendTx`). -/
def userGetSignData (st : ℕ) (ok : Bool) : ℕ × Option String :=
  if st ≠ StatusCanGetSign then (st, some (illegalStatus st))
  else if ok then (StatusWaitSendTx, none)
  else (st, some "signing failed")

/-- Mirrors the status behaviour of `User.SetSignData` (guard
`StatusWaitForSign`, success `StatusWaitSendTx`). -/
def userSetSignData (st : ℕ) (ok : Bool) : ℕ × Option String :=
  if st ≠ StatusWaitForSign then (st, some (illegalStatus st))
  else if ok then (StatusWaitSendTx, none)
  else (st, some "verification failed")

/-- Mirrors the status behaviour of `User.SendFundTx` (guard
`StatusWaitSendTx`; the status field is not written at all, so a
successful call leaves it as it was). -/
def userSendFundTx (st : ℕ) (ok : Bool) : ℕ × Option String :=
  if st ≠ StatusWaitSendTx then (st, some (illegalStatus st))
  else if ok then (st, none)
  else (st, some "broadcast failed")

/-- Mirrors the status behaviour of `User.SetOracleSigns` (guard
`StatusWaitSendTx`; the status field is never written). -/
def userSetOracleSigns (st : ℕ) (ok : Bool) : ℕ × Option String :=
  if st ≠ StatusWaitSendTx then (st, some (illegalStatus st))
  else if ok then (st, none)
  else (st, some "oracle data rejected")

/-- The eight status-guarded operations of `usr.go`. -/
inductive UserOp
  | getOffer | setOffer | getAccept | setAccept
  | getSign | setSign | sendFundTx | setOracle
  deriving Repr, DecidableEq

/-- Dispatch to the per-operation embedding. -/
def runUserOp : UserOp → ℕ → Bool → ℕ × Option String
  | .getOffer => userGetOfferData
  | .setOffer => userSetOfferData
  | .getAccept => userGetAcceptData
  | .setAccept => userSetAcceptData
  | .getSign => userGetSignData
  | .setSign => userSetSignData
  | .sendFundTx => userSendFundTx
  | .setOracle => userSetOracleSigns

/-- The status each operation requires, read off the guards above. -/
def opRequiredStatus : UserOp → ℕ
  | .getOffer => StatusNone
  | .setOffer => StatusNone
  | .getAccept => StatusCanGetAccept
  | .setAccept => StatusWaitForAccept
  | .getSign => StatusCanGetSign
  | .setSign => StatusWaitForSign
  | .sendFundTx => StatusWaitSendTx
  | .setOracle => StatusWaitSendTx

/-- The transitions of the two legal handshake paths
(offerer `0 → 1 → 2 → 30`, acceptor `0 → 10 → 20 → 30`) together with
the stationary `WaitSendTx` operations. -/
def pathEdges : List (ℕ × ℕ) :=
  [(StatusNone, StatusWaitForAccept), (StatusWaitForAccept, StatusCanGetSign),
   (StatusCanGetSign, StatusWaitSendTx),
   (StatusNone, StatusCanGetAccept), (StatusCanGetAccept, StatusWaitForSign),
   (StatusWaitForSign, StatusWaitSendTx),
   (StatusWaitSendTx, StatusWaitSendTx)]

/-- C5: every status-guarded operation of `usr.go`, invoked in any
status other than its required one, returns the "illegal status" error
and leaves the status unchanged; every successful invocation moves the
status along an edge of the offerer path `None → WaitForAccept →
CanGetSign → WaitSendTx` or the acceptor path `None → CanGetAccept →
WaitForSign → WaitSendTx` (the `WaitSendTx` operations staying put), in
particular never backwards. -/
theorem C5_status_machine (op : UserOp) (st : ℕ) (ok : Bool) :
    (st ≠ opRequiredStatus op →
      runUserOp op st ok = (st, some (illegalStatus st))) ∧
    (∀ st2, runUserOp op st ok = (st2, none) →
      st ≤ st2 ∧ (st, st2) ∈ pathEdges) := by
  constructor
  · intro h
    cases op <;>
      simp_all [runUserOp, userGetOfferData, userSetOfferData,
        userGetAcceptData, userSetAcceptData, userGetSignData,
        userSetSignData, userSendFundTx, userSetOracleSigns,
        opRequiredStatus]
  · intro st2 h
    cases op <;>
      (simp only [runUserOp, userGetOfferData, userSetOfferData,
        userGetAcceptData, userSetAcceptData, userGetSignData,
        userSetSignData, userSendFundTx, userSetOracleSigns] at h;
       split at h
       · exact absurd h (by simp)
       · split at h
         · rename_i hg hok
           rw [not_not] at hg
           obtain ⟨h1, h2⟩ := Prod.mk.injEq .. ▸ h
           subst hg
           subst h1
           constructor <;> decide
         · exact absurd h (by simp))

/-- Closed witness for C5: calling `SetSignData` at status
`CanGetAccept` fails with the illegal-status error, and a successful
`GetOfferData` at status `None` lands on a path edge. -/
theorem C5_status_machine_witness :
    ((10 : ℕ) ≠ opRequiredStatus .setSign →
      runUserOp .setSign 10 true = (10, some (illegalStatus 10))) ∧
    ((10 : ℕ) ≠ opRequiredStatus .setSign) ∧
    (∀ st2, runUserOp .getOffer 0 true = (st2, none) →
      0 ≤ st2 ∧ (0, st2) ∈ pathEdges) :=
  ⟨(C5_status_machine .setSign 10 true).1, by decide,
   (C5_status_machine .getOffer 0 true).2⟩

/-! Settlement signature verification (`User.VerifySettlementTxSigns`,
`User.SetAcceptData`). -/

/-- The per-index body of the `VerifySettlementTxSigns` loop.  An entry
`none` embeds the Go empty string (no signature supplied); `verifyFn`
abstracts `Dlc.Verify` — DER parsing of the signature and ECDSA
verification against the locally computed settlement transaction for
that rate under the counterparty's public key (hex decoding failures
are folded into it as well). -/
def verifyLoop (high : Bool) (verifyFn : Rate → Bytes → Bool) :
    List Rate → List (Option Bytes) → Option String
  | [], _ => none
  | _ :: _, [] => none
  | r :: rs, s :: ss =>
    match s with
    | none =>
        if (if high then r.amta else r.amtb) ≠ 0 then some "not found sign"
        else verifyLoop high verifyFn rs ss
    | some sg =>
        if verifyFn r sg then verifyLoop high verifyFn rs ss
        else some "verify fail"

/-- Mirrors `User.VerifySettlementTxSigns`: a length check, then the
per-rate loop. -/
def VerifySettlementTxSigns (rates : List Rate) (signs : List (Option Bytes))
    (high : Bool) (verifyFn : Rate → Bytes → Bool) : Option String :=
  if rates.length ≠ signs.length then some "size Error"
  else verifyLoop high verifyFn rates signs

/-- Mirrors the control flow of `User.SetAcceptData`: status guard,
deserialization (abstracted into `parseOk`), settlement signature
verification, refund signature verification (abstracted into
`refundOk`); only after all of them does the status become
`StatusCanGetSign`. -/
def userSetAcceptDataFull (st : ℕ) (parseOk : Bool) (rates : List Rate)
    (signs : List (Option Bytes)) (high : Bool)
    (verifyFn : Rate → Bytes → Bool) (refundOk : Bool) : ℕ × Option String :=
  if st ≠ StatusWaitForAccept then (st, some (illegalStatus st))
  else if ¬ parseOk then (st, some "deserialize failed")
  else
    match VerifySettlementTxSigns rates signs high verifyFn with
    | some e => (st, some e)
    | none =>
        if refundOk then (StatusCanGetSign, none)
        else (st, some "refund signature verification failed")

/-- If the loop returns no error, every index passed its check: a
supplied signature verifies, and a missing signature is only accepted
where the verifying side's share is zero. -/
theorem verifyLoop_none_all (high : Bool) (verifyFn : Rate → Bytes → Bool) :
    ∀ (rates : List Rate) (signs : List (Option Bytes)),
      verifyLoop high verifyFn rates signs = none →
      ∀ i (hi : i < rates.length) (hj : i < signs.length),
        (∀ sg, signs[i] = some sg → verifyFn rates[i] sg = true) ∧
        (signs[i] = none →
          (if high then rates[i].amta else rates[i].amtb) = 0) := by
  intro rates
  induction rates with
  | nil => intro signs _ i hi; exact absurd hi (by simp)
  | cons r rs ih =>
      intro signs hnone i hi hj
      cases signs with
      | nil => exact absurd hj (by simp)
      | cons s ss =>
          cases s with
          | none =>
              rw [verifyLoop] at hnone
              by_cases hz : (if high then r.amta else r.amtb) ≠ 0
              · rw [if_pos hz] at hnone; exact absurd hnone (by simp)
              · rw [if_neg hz] at hnone
                rw [not_not] at hz
                cases i with
                | zero => exact ⟨fun sg hsg => by simp at hsg, fun _ => hz⟩
                | succ n =>
                    exact ih ss hnone n (by simpa using hi) (by simpa using hj)
          | some sg0 =>
              rw [verifyLoop] at hnone
              by_cases hv : verifyFn r sg0
              · rw [if_pos hv] at hnone
                cases i with
                | zero =>
                    refine ⟨fun sg hsg => ?_, fun hn => by simp at hn⟩
                    simp only [List.getElem_cons_zero] at hsg ⊢
                    cases hsg; exact hv
                | succ n =>
                    exact ih ss hnone n (by simpa using hi) (by simpa using hj)
              · rw [if_neg hv] at hnone; exact absurd hnone (by simp)

/-- C6: if `SetAcceptData` receives a signature list of the wrong
length, or one in which some supplied signature fails DER/ECDSA
verification for its rate, or one in which a signature is missing for a
rate where the verifying side's share is nonzero, the call returns an
error and the status is unchanged — in particular it does not advance
to `StatusCanGetSign`, so nothing is broadcast. -/
theorem C6_accept_verification_failure (st : ℕ) (parseOk : Bool)
    (rates : List Rate) (signs : List (Option Bytes)) (high : Bool)
    (verifyFn : Rate → Bytes → Bool) (refundOk : Bool)
    (hbad : rates.length ≠ signs.length ∨
      ∃ i, ∃ (hi : i < rates.length) (hj : i < signs.length),
        (∃ sg, signs[i] = some sg ∧ verifyFn rates[i] sg = false) ∨
        (signs[i] = none ∧
          (if high then rates[i].amta else rates[i].amtb) ≠ 0)) :
    (userSetAcceptDataFull st parseOk rates signs high verifyFn refundOk).1
        = st ∧
    (userSetAcceptDataFull st parseOk rates signs high verifyFn refundOk).2
        ≠ none := by
  have hver : VerifySettlementTxSigns rates signs high verifyFn ≠ none := by
    intro hnone
    unfold VerifySettlementTxSigns at hnone
    rcases hbad with hlen | ⟨i, hi, hj, hbad⟩
    · rw [if_pos hlen] at hnone; exact Option.noConfusion hnone
    · by_cases hlen : rates.length ≠ signs.length
      · rw [if_pos hlen] at hnone; exact Option.noConfusion hnone
      · rw [if_neg hlen] at hnone
        have hall := verifyLoop_none_all high verifyFn rates signs hnone i hi hj
        rcases hbad with ⟨sg, hsg, hfail⟩ | ⟨hn, hnz⟩
        · rw [hall.1 sg hsg] at hfail; exact Bool.noConfusion hfail
        · exact hnz (hall.2 hn)
  unfold userSetAcceptDataFull
  split
  · exact ⟨rfl, by simp⟩
  · split
    · exact ⟨rfl, by simp⟩
    · cases hv : VerifySettlementTxSigns rates signs high verifyFn with
      | none => exact absurd hv hver
      | some e => simp [hv]

/-- Concrete data for the C6 witness: one rate paying the verifying
side 1 satoshi, an empty signature for it, a verifier that accepts
everything. -/
def crates : List Rate := [⟨[some 0], 1, 0⟩]

def csigns : List (Option Bytes) := [none]

def cverify : Rate → Bytes → Bool := fun _ _ => true

/-- Closed witness for C6: with an empty signature supplied for a rate
whose own share is 1, the call errors and stays at
`StatusWaitForAccept`. -/
theorem C6_accept_verification_failure_witness :
    (∃ i, ∃ (hi : i < crates.length) (hj : i < csigns.length),
      (∃ sg, csigns[i] = some sg ∧ cverify crates[i] sg = false) ∨
      (csigns[i] = none ∧
        (if true then crates[i].amta else crates[i].amtb) ≠ 0)) ∧
    (userSetAcceptDataFull StatusWaitForAccept true crates csigns
        true cverify true).1 = StatusWaitForAccept ∧
    (userSetAcceptDataFull StatusWaitForAccept true crates csigns
        true cverify true).2 ≠ none := by
  have hex : ∃ i, ∃ (hi : i < crates.length) (hj : i < csigns.length),
      (∃ sg, csigns[i] = some sg ∧ cverify crates[i] sg = false) ∨
      (csigns[i] = none ∧
        (if true then crates[i].amta else crates[i].amtb) ≠ 0) :=
    ⟨0, by decide, by decide, Or.inr ⟨rfl, by decide⟩⟩
  exact ⟨hex, C6_accept_verification_failure StatusWaitForAccept true
    crates csigns true cverify true (Or.inr hex)⟩

/-! Wallet UTXO selection (`Wallet.FundTx` in `wallet.go`). -/

/-- Size constants of `dlc.go`. -/
def DlcSettlementTxSize : ℤ := 345
def DlcFundTxBaseSize : ℤ := 55
def DlcTxInSize : ℤ := 149
def DlcTxOutSize : ℤ := 31

/-- The UTXO-selection loop of `Wallet.FundTx`.  State: number of
collected outpoints, their total value, and the `addfee` value as of
the last processed UTXO (recomputed from scratch each iteration, so the
incoming value is discarded).  The loop breaks when
`amount + len·149·efee` equals the running total, or — after adding the
change-output fee `31·efee` — is at most the running total. -/
def fundScan (amount efee : ℤ) : List ℤ → ℕ → ℤ → ℤ → ℕ × ℤ × ℤ
  | [], k, total, addfee => (k, total, addfee)
  | v :: rest, k, total, _ =>
    let k2 := k + 1
    let total2 := total + v
    let fee1 := (k2 : ℤ) * DlcTxInSize * efee
    if amount + fee1 ≤ total2 then
      if amount + fee1 = total2 then (k2, total2, fee1)
      else
        let fee2 := fee1 + DlcTxOutSize * efee
        if amount + fee2 ≤ total2 then (k2, total2, fee2)
        else fundScan amount efee rest k2 total2 fee2
    else fundScan amount efee rest k2 total2 fee1

/-- Mirrors `Wallet.FundTx`: run the selection loop over the (already
sorted) UTXO value list; error "short of bitcoin" when the collected
total cannot pay; attach no change output on exact cover, otherwise a
change output worth the surplus.  Returns the number of selected inputs
(they are the first `k` UTXOs of the list) and the optional change
value. -/
def WalletFundTx (utxos : List ℤ) (amount efee : ℤ) :
    Except String (ℕ × Option ℤ) :=
  let s := fundScan amount efee utxos 0 0 0
  if s.2.1 < amount + s.2.2 then .error "short of bitcoin"
  else if amount + s.2.2 = s.2.1 then .ok (s.1, none)
  else .ok (s.1, some (s.2.1 - (amount + s.2.2)))

/-- The loop's break condition, expressed for the prefix of length `i`
of the remaining list, on top of `k0` inputs and total `t0` already
collected: the totals cover the target exactly, or cover it plus the
change-output fee. -/
def gstop (amount efee : ℤ) (k0 : ℕ) (t0 : ℤ) (l : List ℤ) (i : ℕ) : Prop :=
  amount + ((k0 + i : ℕ) : ℤ) * DlcTxInSize * efee = t0 + (l.take i).sum ∨
  (amount + ((k0 + i : ℕ) : ℤ) * DlcTxInSize * efee < t0 + (l.take i).sum ∧
   amount + ((k0 + i : ℕ) : ℤ) * DlcTxInSize * efee + DlcTxOutSize * efee ≤
     t0 + (l.take i).sum)

/-- The break condition of the whole call (no inputs collected yet). -/
def coverStop (amount efee : ℤ) (utxos : List ℤ) (j : ℕ) : Prop :=
  gstop amount efee 0 0 utxos j

instance (amount efee : ℤ) (k0 : ℕ) (t0 : ℤ) (l : List ℤ) (i : ℕ) :
    Decidable (gstop amount efee k0 t0 l i) := by
  unfold gstop; infer_instance

/-- Shifting `gstop` across one consumed UTXO. -/
theorem gstop_shift (amount efee : ℤ) (k0 : ℕ) (t0 v : ℤ) (rest : List ℤ)
    (i : ℕ) :
    gstop amount efee (k0 + 1) (t0 + v) rest i ↔
      gstop amount efee k0 t0 (v :: rest) (i + 1) := by
  unfold gstop
  have h1 : ((k0 + 1 + i : ℕ) : ℤ) = ((k0 + (i + 1) : ℕ) : ℤ) := by push_cast; ring
  have h2 : (t0 + v) + (rest.take i).sum = t0 + ((v :: rest).take (i + 1)).sum := by
    simp [List.take_succ_cons, add_assoc]
  rw [h1, h2]

/-- If no prefix of the remaining list satisfies the break condition,
the loop consumes the whole list; when the list was nonempty, the final
state cannot pay for the target plus fees. -/
theorem fundScan_no_stop (amount efee : ℤ) :
    ∀ (l : List ℤ) (k0 : ℕ) (t0 f0 : ℤ),
      (∀ i, 1 ≤ i → i ≤ l.length → ¬ gstop amount efee k0 t0 l i) →
      (l = [] ∧ fundScan amount efee l k0 t0 f0 = (k0, t0, f0)) ∨
      (l ≠ [] ∧ ∃ F, fundScan amount efee l k0 t0 f0 =
          (k0 + l.length, t0 + l.sum, F) ∧ t0 + l.sum < amount + F) := by
  intro l
  induction l with
  | nil => intro k0 t0 f0 _; exact Or.inl ⟨rfl, rfl⟩
  | cons v rest ih =>
      intro k0 t0 f0 hns
      right
      refine ⟨by simp, ?_⟩
      have hn1 := hns 1 le_rfl (by simp)
      unfold gstop at hn1
      simp only [List.take_succ_cons, List.take_zero, List.sum_cons,
        List.sum_nil, add_zero] at hn1
      have hrest : ∀ i, 1 ≤ i → i ≤ rest.length →
          ¬ gstop amount efee (k0 + 1) (t0 + v) rest i := by
        intro i h1 h2
        rw [gstop_shift]
        exact hns (i + 1) (by omega) (by simp; omega)
      have hcons : ∀ (F : ℤ),
          fundScan amount efee rest (k0 + 1) (t0 + v) F =
              (k0 + 1 + rest.length, t0 + v + rest.sum, F) ∧
              rest = [] ∨
            (∃ G, fundScan amount efee rest (k0 + 1) (t0 + v) F =
              (k0 + 1 + rest.length, t0 + v + rest.sum, G) ∧
              t0 + v + rest.sum < amount + G) := by
        intro F
        rcases ih (k0 + 1) (t0 + v) F hrest with ⟨hrtl, heq⟩ | ⟨_, G, heq, hlt2⟩
        · subst hrtl
          exact Or.inl ⟨by simpa using heq, rfl⟩
        · exact Or.inr ⟨G, heq, hlt2⟩
      simp only [fundScan]
      split_ifs with h1 h2 h3
      · exact absurd (Or.inl h2) hn1
      · exact absurd (Or.inr ⟨lt_of_le_of_ne h1 h2, by linarith [h3]⟩) hn1
      · rcases hcons (((k0 + 1 : ℕ) : ℤ) * DlcTxInSize * efee +
            DlcTxOutSize * efee) with ⟨heq, hrtl⟩ | ⟨G, heq, hlt2⟩
        · subst hrtl
          refine ⟨((k0 + 1 : ℕ) : ℤ) * DlcTxInSize * efee +
              DlcTxOutSize * efee, ?_, ?_⟩
          · rw [heq]
            simp only [List.length_cons, List.sum_cons, Prod.mk.injEq]
            exact ⟨by omega, by simp [List.sum_nil], trivial⟩
          · simp only [List.sum_cons, List.sum_nil, add_zero]
            linarith [h3]
        · refine ⟨G, ?_, ?_⟩
          · rw [heq]
            simp only [List.length_cons, List.sum_cons, Prod.mk.injEq]
            exact ⟨by omega, by ring, trivial⟩
          · simp only [List.sum_cons]
            linarith [hlt2]
      · rcases hcons (((k0 + 1 : ℕ) : ℤ) * DlcTxInSize * efee)
            with ⟨heq, hrtl⟩ | ⟨G, heq, hlt2⟩
        · subst hrtl
          refine ⟨((k0 + 1 : ℕ) : ℤ) * DlcTxInSize * efee, ?_, ?_⟩
          · rw [heq]
            simp only [List.length_cons, List.sum_cons, Prod.mk.injEq]
            exact ⟨by omega, by simp [List.sum_nil], trivial⟩
          · simp only [List.sum_cons, List.sum_nil, add_zero]
            linarith [h1]
        · refine ⟨G, ?_, ?_⟩
          · rw [heq]
            simp only [List.length_cons, List.sum_cons, Prod.mk.injEq]
            exact ⟨by omega, by ring, trivial⟩
          · simp only [List.sum_cons]
            linarith [hlt2]

/-- The loop breaks at the first index satisfying the break condition,
having collected exactly that prefix; the final `addfee` is the input
fee alone on an exact cover and additionally the change-output fee
otherwise. -/
theorem fundScan_first_stop (amount efee : ℤ) :
    ∀ (l : List ℤ) (j : ℕ) (k0 : ℕ) (t0 f0 : ℤ),
      1 ≤ j → j ≤ l.length →
      gstop amount efee k0 t0 l j →
      (∀ i, 1 ≤ i → i < j → ¬ gstop amount efee k0 t0 l i) →
      fundScan amount efee l k0 t0 f0 =
        (k0 + j, t0 + (l.take j).sum,
         if amount + ((k0 + j : ℕ) : ℤ) * DlcTxInSize * efee =
             t0 + (l.take j).sum
         then ((k0 + j : ℕ) : ℤ) * DlcTxInSize * efee
         else ((k0 + j : ℕ) : ℤ) * DlcTxInSize * efee + DlcTxOutSize * efee) := by
  intro l
  induction l with
  | nil =>
      intro j k0 t0 f0 h1 h2
      simp only [List.length_nil, Nat.le_zero] at h2
      omega
  | cons v rest ih =>
      intro j k0 t0 f0 hj1 hjle hstop hmin
      obtain ⟨j2, rfl⟩ : ∃ j2, j = j2 + 1 := ⟨j - 1, by omega⟩
      rcases Nat.eq_zero_or_pos j2 with hz | hpos
      · subst hz
        unfold gstop at hstop
        simp only [List.take_succ_cons, List.take_zero, List.sum_cons,
          List.sum_nil, add_zero] at hstop ⊢
        simp only [fundScan]
        rcases hstop with heq | ⟨hlt, hle2⟩
        · rw [if_pos (le_of_eq heq), if_pos heq, if_pos heq]
        · have hne : amount + ((k0 + (0 + 1) : ℕ) : ℤ) * DlcTxInSize * efee ≠
              t0 + v := ne_of_lt hlt
          rw [if_pos (le_of_lt hlt), if_neg hne,
            if_pos (show amount + (((k0 + (0 + 1) : ℕ) : ℤ) * DlcTxInSize * efee +
              DlcTxOutSize * efee) ≤ t0 + v by linarith [hle2]),
            if_neg hne]
      · have hk1 : ¬ gstop amount efee k0 t0 (v :: rest) 1 :=
          hmin 1 le_rfl (by omega)
        unfold gstop at hk1
        simp only [List.take_succ_cons, List.take_zero, List.sum_cons,
          List.sum_nil, add_zero] at hk1
        have hstop2 : gstop amount efee (k0 + 1) (t0 + v) rest j2 :=
          (gstop_shift amount efee k0 t0 v rest j2).mpr hstop
        have hmin2 : ∀ i, 1 ≤ i → i < j2 →
            ¬ gstop amount efee (k0 + 1) (t0 + v) rest i := by
          intro i hi1 hi2
          rw [gstop_shift]
          exact hmin (i + 1) (by omega) (by omega)
        have hjle2 : j2 ≤ rest.length := by
          simp only [List.length_cons] at hjle; omega
        have hnat : k0 + 1 + j2 = k0 + (j2 + 1) := by omega
        simp only [fundScan]
        by_cases hle : amount + ((k0 + 1 : ℕ) : ℤ) * DlcTxInSize * efee ≤ t0 + v
        · have hne : amount + ((k0 + 1 : ℕ) : ℤ) * DlcTxInSize * efee ≠
              t0 + v := fun hcon => hk1 (Or.inl hcon)
          have hf2 : ¬ (amount + (((k0 + 1 : ℕ) : ℤ) * DlcTxInSize * efee +
              DlcTxOutSize * efee) ≤ t0 + v) := fun hcon =>
            hk1 (Or.inr ⟨lt_of_le_of_ne hle hne, by linarith [hcon]⟩)
          rw [if_pos hle, if_neg hne, if_neg hf2,
            ih j2 (k0 + 1) (t0 + v) _ hpos hjle2 hstop2 hmin2, hnat]
          simp only [List.take_succ_cons, List.sum_cons, add_assoc]
        · rw [if_neg hle,
            ih j2 (k0 + 1) (t0 + v) _ hpos hjle2 hstop2 hmin2, hnat]
          simp only [List.take_succ_cons, List.sum_cons, add_assoc]

/-- C7 (amended): the wallet funds a transaction from the first `k`
UTXOs of its (sorted) list, stopping greedily.  On success with no
change output the selected total equals either `amount + k·149·efee`
(exact cover) or `amount + k·149·efee + 31·efee` (the change value
would have been zero, which the code folds into the no-change branch);
on success with a change output the change is the positive surplus
above `amount + k·149·efee + 31·efee`.  The call fails with "short of
bitcoin" exactly when no prefix of the UTXO list satisfies the break
condition and the call actually needed funds (positive amount or a
nonempty list). -/
theorem C7_wallet_fund_tx (utxos : List ℤ) (amount efee : ℤ)
    (h0 : 0 ≤ amount) :
    (∀ k ch, WalletFundTx utxos amount efee = .ok (k, ch) →
      k ≤ utxos.length ∧
      ((ch = none ∧
        ((utxos.take k).sum = amount + (k : ℤ) * DlcTxInSize * efee ∨
         (utxos.take k).sum =
           amount + (k : ℤ) * DlcTxInSize * efee + DlcTxOutSize * efee)) ∨
       (∃ c, ch = some c ∧
         c = (utxos.take k).sum -
           (amount + (k : ℤ) * DlcTxInSize * efee + DlcTxOutSize * efee) ∧
         0 < c))) ∧
    (WalletFundTx utxos amount efee = .error "short of bitcoin" ↔
      ((∀ j, 1 ≤ j → j ≤ utxos.length → ¬ coverStop amount efee utxos j) ∧
       (0 < amount ∨ utxos ≠ []))) := by
  by_cases hex : ∃ j, 1 ≤ j ∧ j ≤ utxos.length ∧ coverStop amount efee utxos j
  · -- a break happens at the least such index
    classical
    let j0 := Nat.find hex
    obtain ⟨hj1, hjle, hstop⟩ : 1 ≤ j0 ∧ j0 ≤ utxos.length ∧
        coverStop amount efee utxos j0 := Nat.find_spec hex
    have hmin : ∀ i, 1 ≤ i → i < j0 → ¬ gstop amount efee 0 0 utxos i := by
      intro i hi1 hij hsi
      exact Nat.find_min hex hij ⟨hi1, by omega, hsi⟩
    have hscan := fundScan_first_stop amount efee utxos j0 0 0 0 hj1 hjle
      hstop hmin
    simp only [Nat.zero_add, zero_add] at hscan
    by_cases hcase : amount + (j0 : ℤ) * DlcTxInSize * efee =
        (utxos.take j0).sum
    · have hres : WalletFundTx utxos amount efee = .ok (j0, none) := by
        unfold WalletFundTx
        rw [hscan]
        dsimp only
        rw [if_pos hcase, if_neg (by rw [hcase]; exact lt_irrefl _),
          if_pos hcase]
      rw [hres]
      refine ⟨fun k ch hok => ?_, ?_⟩
      · simp only [Except.ok.injEq, Prod.mk.injEq] at hok
        obtain ⟨rfl, rfl⟩ := hok
        exact ⟨hjle, Or.inl ⟨rfl, Or.inl hcase.symm⟩⟩
      · constructor
        · intro h; exact absurd h (by simp)
        · rintro ⟨hno, _⟩
          exact absurd hstop (hno j0 hj1 hjle)
    · have hstop2 : amount + (j0 : ℤ) * DlcTxInSize * efee <
            (utxos.take j0).sum ∧
          amount + (j0 : ℤ) * DlcTxInSize * efee + DlcTxOutSize * efee ≤
            (utxos.take j0).sum := by
        unfold coverStop gstop at hstop
        simp only [Nat.zero_add, zero_add] at hstop
        rcases hstop with h | h
        · exact absurd h hcase
        · exact h
      by_cases heq2 : amount + ((j0 : ℤ) * DlcTxInSize * efee +
          DlcTxOutSize * efee) = (utxos.take j0).sum
      · have hres : WalletFundTx utxos amount efee = .ok (j0, none) := by
          unfold WalletFundTx
          rw [hscan]
          dsimp only
          rw [if_neg hcase, if_neg (by rw [heq2]; exact lt_irrefl _),
            if_pos heq2]
        rw [hres]
        refine ⟨fun k ch hok => ?_, ?_⟩
        · simp only [Except.ok.injEq, Prod.mk.injEq] at hok
          obtain ⟨rfl, rfl⟩ := hok
          exact ⟨hjle, Or.inl ⟨rfl, Or.inr (by linarith [heq2])⟩⟩
        · constructor
          · intro h; exact absurd h (by simp)
          · rintro ⟨hno, _⟩
            exact absurd hstop (hno j0 hj1 hjle)
      · have hlt2 : amount + ((j0 : ℤ) * DlcTxInSize * efee +
            DlcTxOutSize * efee) < (utxos.take j0).sum := by
          rcases lt_or_eq_of_le hstop2.2 with h | h
          · linarith
          · exact absurd (by linarith [h]) heq2
        have hres : WalletFundTx utxos amount efee =
            .ok (j0, some ((utxos.take j0).sum -
              (amount + ((j0 : ℤ) * DlcTxInSize * efee +
                DlcTxOutSize * efee)))) := by
          unfold WalletFundTx
          rw [hscan]
          dsimp only
          rw [if_neg hcase, if_neg (not_lt.mpr (le_of_lt hlt2)),
            if_neg (ne_of_lt hlt2)]
        rw [hres]
        refine ⟨fun k ch hok => ?_, ?_⟩
        · simp only [Except.ok.injEq, Prod.mk.injEq] at hok
          obtain ⟨rfl, rfl⟩ := hok
          exact ⟨hjle, Or.inr ⟨_, rfl, by ring, by linarith [hlt2]⟩⟩
        · constructor
          · intro h; exact absurd h (by simp)
          · rintro ⟨hno, _⟩
            exact absurd hstop (hno j0 hj1 hjle)
  · -- no break index exists: the loop exhausts the list
    push_neg at hex
    have hns : ∀ i, 1 ≤ i → i ≤ utxos.length →
        ¬ gstop amount efee 0 0 utxos i := by
      intro i h1 h2
      exact hex i h1 h2
    rcases fundScan_no_stop amount efee utxos 0 0 0 hns with
      ⟨hnil, hscan⟩ | ⟨hnnil, F, hscan, hshort⟩
    · subst hnil
      by_cases ha : 0 < amount
      · have hres : WalletFundTx [] amount efee =
            .error "short of bitcoin" := by
          unfold WalletFundTx
          rw [hscan]
          dsimp only
          rw [if_pos (by simpa using ha)]
        rw [hres]
        refine ⟨fun k ch hok => absurd hok (by simp), ?_⟩
        constructor
        · intro _
          exact ⟨fun j hj1 hj0 => by simp at hj0; omega, Or.inl ha⟩
        · intro _; rfl
      · have ha0 : amount = 0 := le_antisymm (not_lt.mp ha) h0
        subst ha0
        have hres : WalletFundTx [] 0 efee = .ok (0, none) := by
          unfold WalletFundTx
          rw [hscan]
          dsimp only
          rw [if_neg (by simp), if_pos (by simp)]
        rw [hres]
        refine ⟨fun k ch hok => ?_, ?_⟩
        · simp only [Except.ok.injEq, Prod.mk.injEq] at hok
          obtain ⟨rfl, rfl⟩ := hok
          exact ⟨by simp, Or.inl ⟨rfl, Or.inl (by simp)⟩⟩
        · constructor
          · intro h; exact absurd h (by simp)
          · rintro ⟨_, h | h⟩
            · exact absurd h (by simp)
            · exact absurd rfl h
    · have hres : WalletFundTx utxos amount efee =
          .error "short of bitcoin" := by
        unfold WalletFundTx
        rw [hscan]
        dsimp only
        rw [if_pos (by simpa using hshort)]
      rw [hres]
      refine ⟨fun k ch hok => absurd hok (by simp), ?_⟩
      constructor
      · intro _; exact ⟨hns, Or.inr hnnil⟩
      · intro _; rfl

/-- Counterexample to C7 as stated: with a single 280-satoshi UTXO,
target 100 and fee rate 1, the call succeeds with one input and no
change output, yet the selected total 280 is not
`amount + 1·149·efee = 249` — the exact-cover-with-change-fee case the
claim omits. -/
theorem C7_wallet_fund_tx_counterexample :
    WalletFundTx [280] 100 1 = .ok (1, none) ∧
    ¬ (([(280 : ℤ)].take 1).sum = 100 + (1 : ℤ) * DlcTxInSize * 1) := by
  constructor
  · rfl
  · decide

/-- Closed witness for C7 at the amended statement: the same concrete
call, checked through the theorem. -/
theorem C7_wallet_fund_tx_witness :
    (0 : ℤ) ≤ 100 ∧
    (([(280 : ℤ)].take 1).sum = 100 + (1 : ℤ) * DlcTxInSize * 1 ∨
     ([(280 : ℤ)].take 1).sum =
       100 + (1 : ℤ) * DlcTxInSize * 1 + DlcTxOutSize * 1) := by
  refine ⟨by decide, ?_⟩
  have h := (C7_wallet_fund_tx [280] 100 1 (by decide)).1 1 none rfl
  rcases h.2 with ⟨_, hd⟩ | ⟨c, hc, _⟩
  · exact hd
  · exact absurd hc (by simp)

/-! Rate table generation (`Game.Rates`) and rate search
(`Game.searchRate`). -/

/-- Little-endian byte `i` of `x`, as computed by the loop
`msgs[i] = byte(tmp % 0x100); tmp = (tmp - tmp%0x100) / 0x100`. -/
def byteLE (x i : ℕ) : ℕ := x / 256 ^ i % 256

/-- Message vector of the two don't-care quarters: only the last of the
`length` positions is specified, holding `byte(x)`; all other positions
are the Go `nil`. -/
def tailMsgs (length x : ℕ) : List (Option ℕ) :=
  (List.range length).map fun i =>
    if i = length - 1 then some (x % 256) else none

/-- Message vector of the linear quarters: position `i` holds the
`i`-th little-endian byte of `x`. -/
def leMsgs (length x : ℕ) : List (Option ℕ) :=
  (List.range length).map fun i => some (byteLE x i)

/-- Mirrors `Game.Rates` with `q = 256^length / 4`: outcomes `[0,q)`
pay everything to B with only the last byte specified; outcomes
`[q,3q)` carry the full little-endian encoding and the linear split;
outcomes `[3q,4q)` pay everything to A with only the last byte
specified.  The Go code computes the linear quarter's high value with
`float64` arithmetic (`math.Round(a*float64(x)-b)`); the embedding
abstracts that computation into `highFn`, as every claim settled here
is independent of the values it returns. -/
def Rates (amount : ℤ) (length : ℕ) (highFn : ℕ → ℤ) : List Rate :=
  let q := 256 ^ length / 4
  ((List.range q).map fun x => ⟨tailMsgs length x, 0, amount⟩) ++
    ((List.range (2 * q)).map fun k =>
      ⟨leMsgs length (q + k), highFn (q + k), amount - highFn (q + k)⟩) ++
    ((List.range q).map fun k => ⟨tailMsgs length (3 * q + k), amount, 0⟩)

/-- Mirrors `Game.bseq`: byte strings are equal when their lengths and
all bytes agree. -/
def bseq : Bytes → Bytes → Bool
  | [], [] => true
  | a :: as, b :: bs => a == b && bseq as bs
  | _, _ => false

/-- One position check of the `searchRate` inner loop: a stored `nil`
matches anything; a stored byte string must be `bseq`-equal to the
attested byte string at that position. -/
def posMatch (rmsgs : List (Option ℕ)) (att : List Bytes) (i : ℕ) : Bool :=
  match rmsgs.getD i none with
  | none => true
  | some b => bseq [b] (att.getD i [])

/-- The inner loop of `Game.searchRate`: scan positions `i, i-1, …, 0`,
aborting on the first mismatch. -/
def matchDown (rmsgs : List (Option ℕ)) (att : List Bytes) : ℕ → Bool
  | 0 => posMatch rmsgs att 0
  | i + 1 => posMatch rmsgs att (i + 1) && matchDown rmsgs att i

/-- Whether a rate matches the attested messages at every position of a
length-`L` game (the Go loop starts at `L-1` and a zero-length game
selects nothing). -/
def matchRate (L : ℕ) (r : Rate) (att : List Bytes) : Bool :=
  if L = 0 then false else matchDown r.msgs att (L - 1)

/-- Mirrors `Game.searchRate`: the first rate of the table matching the
attested messages at all positions. -/
def searchRate (L : ℕ) (rates : List Rate) (att : List Bytes) : Option Rate :=
  rates.find? fun r => matchRate L r att

/-- Whether no position of a rate's message vector is the Go `nil`
(the spec's "fully specified"). -/
def noNil (r : Rate) : Bool := r.msgs.all fun m => m.isSome

theorem Rates_length (amount : ℤ) (length : ℕ) (highFn : ℕ → ℤ) :
    (Rates amount length highFn).length = 4 * (256 ^ length / 4) := by
  simp [Rates]
  omega

theorem Rates_getElem_low (amount : ℤ) (L : ℕ) (f : ℕ → ℤ) (i : ℕ)
    (hi : i < 256 ^ L / 4) (ht : i < (Rates amount L f).length) :
    (Rates amount L f)[i] = ⟨tailMsgs L i, 0, amount⟩ := by
  simp only [Rates]
  rw [List.getElem_append_left (by simp; omega),
    List.getElem_append_left (by simpa using hi),
    List.getElem_map, List.getElem_range]

theorem Rates_getElem_mid (amount : ℤ) (L : ℕ) (f : ℕ → ℤ) (i : ℕ)
    (h1 : 256 ^ L / 4 ≤ i) (h3 : i < 3 * (256 ^ L / 4))
    (ht : i < (Rates amount L f).length) :
    (Rates amount L f)[i] = ⟨leMsgs L i, f i, amount - f i⟩ := by
  simp only [Rates]
  rw [List.getElem_append_left (by simp; omega),
    List.getElem_append_right (by simpa using h1),
    List.getElem_map, List.getElem_range]
  simp only [List.length_map, List.length_range]
  have : 256 ^ L / 4 + (i - 256 ^ L / 4) = i := by omega
  rw [this]

theorem Rates_getElem_high (amount : ℤ) (L : ℕ) (f : ℕ → ℤ) (i : ℕ)
    (h3 : 3 * (256 ^ L / 4) ≤ i) (ht : i < (Rates amount L f).length) :
    (Rates amount L f)[i] = ⟨tailMsgs L i, amount, 0⟩ := by
  simp only [Rates]
  rw [List.getElem_append_right (by simp; omega),
    List.getElem_map, List.getElem_range]
  simp only [List.length_append, List.length_map, List.length_range]
  have : 3 * (256 ^ L / 4) + (i - (256 ^ L / 4 + 2 * (256 ^ L / 4))) = i := by
    omega
  rw [this]

theorem tailMsgs_one (x : ℕ) : tailMsgs 1 x = [some (x % 256)] := rfl

theorem leMsgs_one (x : ℕ) : leMsgs 1 x = [some (x % 256)] := by
  simp [leMsgs, byteLE, List.range_succ]

theorem tailMsgs_two (x : ℕ) : tailMsgs 2 x = [none, some (x % 256)] := rfl

theorem leMsgs_two (x : ℕ) :
    leMsgs 2 x = [some (x % 256), some (x / 256 % 256)] := by
  simp [leMsgs, byteLE, List.range_succ]

/-- For a 1-byte game every entry of the table is the singleton message
vector of its own index. -/
theorem Rates_msgs_one (amount : ℤ) (f : ℕ → ℤ) (i : ℕ)
    (ht : i < (Rates amount 1 f).length) :
    ((Rates amount 1 f)[i]).msgs = [some i] := by
  have hlen : (Rates amount 1 f).length = 256 := by
    rw [Rates_length]; norm_num
  have hi : i < 256 := hlen ▸ ht
  have hq : (256 : ℕ) ^ 1 / 4 = 64 := by norm_num
  rcases lt_or_le i 64 with h | h
  · rw [Rates_getElem_low amount 1 f i (by omega) ht, tailMsgs_one]
    simp [Nat.mod_eq_of_lt (by omega : i < 256)]
  · rcases lt_or_le i 192 with h2 | h2
    · rw [Rates_getElem_mid amount 1 f i (by omega) (by omega) ht, leMsgs_one]
      simp [Nat.mod_eq_of_lt (by omega : i < 256)]
    · rw [Rates_getElem_high amount 1 f i (by omega) ht, tailMsgs_one]
      simp [Nat.mod_eq_of_lt (by omega : i < 256)]

/-- For a 2-byte game, an entry with no `nil` position lies in the
linear quarters, and its message vector is the little-endian encoding
of its index. -/
theorem Rates_msgs_two_noNil (amount : ℤ) (f : ℕ → ℤ) (i : ℕ)
    (ht : i < (Rates amount 2 f).length)
    (hnn : noNil ((Rates amount 2 f)[i]) = true) :
    16384 ≤ i ∧ i < 49152 ∧
      ((Rates amount 2 f)[i]).msgs = [some (i % 256), some (i / 256 % 256)] := by
  have hq : (256 : ℕ) ^ 2 / 4 = 16384 := by norm_num
  rcases lt_or_le i 16384 with h | h
  · rw [Rates_getElem_low amount 2 f i (by omega) ht] at hnn
    simp [noNil, tailMsgs_two] at hnn
  · rcases lt_or_le i 49152 with h2 | h2
    · rw [Rates_getElem_mid amount 2 f i (by omega) (by omega) ht, leMsgs_two]
      exact ⟨h, h2, rfl⟩
    · rw [Rates_getElem_high amount 2 f i (by omega) ht] at hnn
      simp [noNil, tailMsgs_two] at hnn

/-- C4: for L in {1,2} the table has `256^L` entries, every entry
splits the fund amount exactly, and no two distinct entries with fully
specified message vectors carry equal vectors.  (All of this holds for
every value of the float-abstracted linear payoff function.) -/
theorem C4_rate_table (amount : ℤ) (hA : 0 < amount) (L : ℕ)
    (hL : L = 1 ∨ L = 2) (f : ℕ → ℤ) :
    (Rates amount L f).length = 256 ^ L ∧
    (∀ r ∈ Rates amount L f, r.amta + r.amtb = amount) ∧
    (∀ i j (hi : i < (Rates amount L f).length)
      (hj : j < (Rates amount L f).length), i ≠ j →
      noNil ((Rates amount L f)[i]) = true →
      noNil ((Rates amount L f)[j]) = true →
      ((Rates amount L f)[i]).msgs ≠ ((Rates amount L f)[j]).msgs) := by
  refine ⟨?_, ?_, ?_⟩
  · rw [Rates_length]
    rcases hL with rfl | rfl <;> norm_num
  · intro r hr
    simp only [Rates, List.mem_append, List.mem_map, List.mem_range] at hr
    rcases hr with (⟨x, _, rfl⟩ | ⟨k, _, rfl⟩) | ⟨k, _, rfl⟩ <;> simp
  · intro i j hi hj hne hni hnj heq
    rcases hL with rfl | rfl
    · have h1 := Rates_msgs_one amount f i hi
      have h2 := Rates_msgs_one amount f j hj
      rw [h1, h2] at heq
      exact hne (by simpa using heq)
    · obtain ⟨hil, hiu, hmi⟩ := Rates_msgs_two_noNil amount f i hi hni
      obtain ⟨hjl, hju, hmj⟩ := Rates_msgs_two_noNil amount f j hj hnj
      rw [hmi, hmj] at heq
      simp only [List.cons.injEq, Option.some.injEq, and_true] at heq
      exact hne (by omega)

/-- Closed witness for C4 at `amount = 1`, `L = 1`, a constant payoff
function. -/
theorem C4_rate_table_witness :
    (0 : ℤ) < 1 ∧ ((1 : ℕ) = 1 ∨ (1 : ℕ) = 2) ∧
    ((Rates 1 1 fun _ => 0).length = 256 ^ 1 ∧
     (∀ r ∈ Rates 1 1 fun _ => 0, r.amta + r.amtb = 1) ∧
     (∀ i j (hi : i < (Rates 1 1 fun _ => 0).length)
       (hj : j < (Rates 1 1 fun _ => 0).length), i ≠ j →
       noNil ((Rates 1 1 fun _ => 0)[i]) = true →
       noNil ((Rates 1 1 fun _ => 0)[j]) = true →
       ((Rates 1 1 fun _ => 0)[i]).msgs ≠ ((Rates 1 1 fun _ => 0)[j]).msgs)) :=
  ⟨by decide, Or.inl rfl, C4_rate_table 1 (by decide) 1 (Or.inl rfl) _⟩

theorem bseq_iff : ∀ xs ys : Bytes, bseq xs ys = true ↔ xs = ys
  | [], [] => by simp [bseq]
  | [], _ :: _ => by simp [bseq]
  | _ :: _, [] => by simp [bseq]
  | a :: as, b :: bs => by
      simp [bseq, bseq_iff as bs]

/-- The downward scan accepts exactly when every position up to its
starting index matches. -/
theorem matchDown_iff (rmsgs : List (Option ℕ)) (att : List Bytes) :
    ∀ n, matchDown rmsgs att n = true ↔
      ∀ i, i ≤ n → posMatch rmsgs att i = true := by
  intro n
  induction n with
  | zero =>
      simp only [matchDown]
      constructor
      · intro h i hi
        have : i = 0 := Nat.le_zero.mp hi
        subst this; exact h
      · intro h; exact h 0 le_rfl
  | succ m ih =>
      simp only [matchDown, Bool.and_eq_true, ih]
      constructor
      · rintro ⟨h1, h2⟩ i hi
        rcases Nat.eq_or_lt_of_le hi with rfl | hlt
        · exact h1
        · exact h2 i (by omega)
      · intro h
        exact ⟨h (m + 1) le_rfl, fun i hi => h i (le_trans hi (Nat.le_succ m))⟩

/-- Matching a single-byte rate against an attestation whose first
entry is the singleton `[b]` holds exactly when the stored byte is
`b`. -/
theorem matchRate_one_of_msgs (r : Rate) (i b : ℕ) (att : List Bytes)
    (hm : r.msgs = [some i]) (hatt : att.getD 0 [] = [b]) :
    matchRate 1 r att = true ↔ i = b := by
  unfold matchRate matchDown posMatch
  rw [hm]
  simp only [List.getD_cons_zero, if_neg (by omega : ¬ (1 : ℕ) = 0), hatt]
  rw [bseq_iff]
  simp

/-- List search returns the element at the first index where the predicate
holds. -/
theorem find?_eq_of_first {α : Type} (p : α → Bool) :
    ∀ (l : List α) (i : ℕ) (hi : i < l.length),
      (∀ j (hj : j < i), p (l[j]) = false) →
      p l[i] = true → l.find? p = some l[i] := by
  intro l
  induction l with
  | nil => intro i hi; simp at hi
  | cons a as ih =>
      intro i hi hprev hp
      cases i with
      | zero =>
          simp only [List.getElem_cons_zero] at hp ⊢
          simp [List.find?_cons, hp]
      | succ m =>
          have ha : p a = false := hprev 0 (Nat.succ_pos m)
          simp only [List.getElem_cons_succ] at hp ⊢
          simp only [List.find?_cons, ha]
          exact ih m (by simpa using hi) (fun j hj => hprev (j + 1) (by omega)) hp

/-- Counterexample to C2 as stated: in the 2-byte table for fund amount
4, the attestation `0x00 0x00` is matched by (at least) two different
rates — the first-quarter rate `([nil, 0x00], 0, 4)` and the
last-quarter rate `([nil, 0x00], 4, 0)` — so no unique matching rate
exists. -/
theorem C2_counterexample :
    (⟨[none, some 0], 0, 4⟩ : Rate) ∈ Rates 4 2 (fun _ => 0) ∧
    (⟨[none, some 0], 4, 0⟩ : Rate) ∈ Rates 4 2 (fun _ => 0) ∧
    matchRate 2 ⟨[none, some 0], 0, 4⟩ [[0], [0]] = true ∧
    matchRate 2 ⟨[none, some 0], 4, 0⟩ [[0], [0]] = true ∧
    ¬ ∃! r : Rate, r ∈ Rates 4 2 (fun _ => 0) ∧
        matchRate 2 r [[0], [0]] = true := by
  have hlen : (Rates 4 2 fun _ => 0).length = 65536 := by
    rw [Rates_length]; norm_num
  have hb0 : (0 : ℕ) < (Rates 4 2 fun _ => 0).length := by omega
  have hb49152 : (49152 : ℕ) < (Rates 4 2 fun _ => 0).length := by omega
  have h0 : (Rates 4 2 fun _ => 0)[0] =
      ⟨[none, some 0], 0, 4⟩ := by
    rw [Rates_getElem_low 4 2 (fun _ => 0) 0 (by norm_num) (by omega),
      tailMsgs_two]
  have h49152 : (Rates 4 2 fun _ => 0)[49152] =
      ⟨[none, some 0], 4, 0⟩ := by
    rw [Rates_getElem_high 4 2 (fun _ => 0) 49152 (by norm_num) (by omega),
      tailMsgs_two]
  have hm1 : (⟨[none, some 0], 0, 4⟩ : Rate) ∈ Rates 4 2 (fun _ => 0) :=
    h0 ▸ List.getElem_mem _
  have hm2 : (⟨[none, some 0], 4, 0⟩ : Rate) ∈ Rates 4 2 (fun _ => 0) :=
    h49152 ▸ List.getElem_mem _
  refine ⟨hm1, hm2, by decide, by decide, ?_⟩
  rintro ⟨r, ⟨_, _⟩, huniq⟩
  have e1 := huniq ⟨[none, some 0], 0, 4⟩ ⟨hm1, by decide⟩
  have e2 := huniq ⟨[none, some 0], 4, 0⟩ ⟨hm2, by decide⟩
  rw [← e2] at e1
  exact absurd (congrArg Rate.amta e1) (by decide)

/-- C2 (amended): for a 1-byte game, any fund amount and any attested
first byte, exactly one rate of the table matches the attestation and
`searchRate` returns precisely that rate.  (For message lengths of two
or more bytes the don't-care quarters make several rates match.) -/
theorem C2_search_unique (amount : ℤ) (hA : 0 < amount) (f : ℕ → ℤ)
    (b : ℕ) (hb : b < 256) (att : List Bytes)
    (hatt : att.getD 0 [] = [b]) :
    ∃ r, searchRate 1 (Rates amount 1 f) att = some r ∧
      r ∈ Rates amount 1 f ∧ matchRate 1 r att = true ∧
      ∀ r2 ∈ Rates amount 1 f, matchRate 1 r2 att = true → r2 = r := by
  have hlen : (Rates amount 1 f).length = 256 := by
    rw [Rates_length]; norm_num
  have hb2 : b < (Rates amount 1 f).length := by omega
  refine ⟨(Rates amount 1 f)[b], ?_, List.getElem_mem _, ?_, ?_⟩
  · unfold searchRate
    refine find?_eq_of_first _ (Rates amount 1 f) b hb2 ?_ ?_
    · intro j hj
      have hmj := Rates_msgs_one amount f j (by omega)
      rw [← Bool.not_eq_true]
      rw [matchRate_one_of_msgs _ j b att hmj hatt]
      omega
    · rw [matchRate_one_of_msgs _ b b att (Rates_msgs_one amount f b hb2) hatt]
  · rw [matchRate_one_of_msgs _ b b att (Rates_msgs_one amount f b hb2) hatt]
  · intro r2 hr2 hmr2
    obtain ⟨k, hk, rfl⟩ := List.mem_iff_getElem.mp hr2
    have hmk := Rates_msgs_one amount f k hk
    rw [matchRate_one_of_msgs _ k b att hmk hatt] at hmr2
    subst hmr2
    rfl

/-- Closed witness for the amended C2: fund amount 4, attested byte 5;
the search returns the unique matching rate. -/
theorem C2_search_unique_witness :
    (0 : ℤ) < 4 ∧ (5 : ℕ) < 256 ∧ ([[5]] : List Bytes).getD 0 [] = [5] ∧
    ∃ r, searchRate 1 (Rates 4 1 fun _ => 0) [[5]] = some r ∧
      r ∈ Rates 4 1 (fun _ => 0) ∧ matchRate 1 r [[5]] = true ∧
      ∀ r2 ∈ Rates 4 1 (fun _ => 0), matchRate 1 r2 [[5]] = true → r2 = r :=
  ⟨by decide, by decide, rfl,
   C2_search_unique 4 (by decide) (fun _ => 0) 5 (by decide) [[5]] rfl⟩

/-! Adaptor engine: `oracle.Commit`, `Game.SetOracleKeys`,
`Game.SetOracleSigns` and the scalars published by `Oracle.Signs`.
Points of secp256k1 live in an arbitrary module over the scalars
(the group is cyclic of prime order `secpN`, hence such a module);
the hash `oracle.H` is abstracted into a function parameter. -/

/-- The order of the secp256k1 group, `btcec.S256().N`. -/
def secpN : ℕ :=
  0xFFFFFFFFFFFFFFFFFFFFFFFFFFFFFFFEBAAEDCE6AF48A03BBFD25E8CD0364141

/-- Scalars modulo the group order (all big-integer arithmetic in the
Go code is performed mod `N`). -/
abbrev Scalar := ZMod secpN

section Adaptor

variable {Pt : Type} [AddCommGroup Pt] [Module Scalar Pt] [DecidableEq Pt]
variable (G : Pt) (Hf : Pt → Bytes → Scalar)

/-- Mirrors `oracle.Commit`: `R − H(R,m)·O`, computed as
`R + ((−H(R,m)) mod n)·O`.  `oracle.H` (SHA-256 over the uncompressed
serialization of `R` and the message, reduced mod n) is the abstract
`Hf`. -/
def Commit (R O : Pt) (m : Bytes) : Pt := R + (-(Hf R m)) • O

/-- The per-rate key computed by `Game.SetOracleKeys`: the sum of
`Commit(keys[idx], pub, m)` over the positions whose message is
present (the Go loop skips entries with `len(m) == 0`; its nil
starting key only ever remains for a rate with no specified position,
which the generator never produces — here the sum starts from the
group zero). -/
def rateKey (keys : List Pt) (pub : Pt) (msgs : List (Option ℕ)) : Pt :=
  (List.range msgs.length).foldl
    (fun acc i =>
      match msgs.getD i none with
      | none => acc
      | some b => acc + Commit Hf (keys.getD i 0) pub [b]) 0

/-- Mirrors `Game.SetOracleKeys`: attach to every rate its message
public key. -/
def SetOracleKeys (keys : List Pt) (pub : Pt) (rates : List Rate) :
    List (Rate × Pt) :=
  rates.map fun r => (r, rateKey Hf keys pub r.msgs)

/-- Mirrors `Game.searchRate` over keyed rates (the key plays no part in the
match). -/
def searchRateK (L : ℕ) (krates : List (Rate × Pt)) (att : List Bytes) :
    Option (Rate × Pt) :=
  krates.find? fun rk => matchRate L rk.1 att

/-- The scalar `Game.SetOracleSigns` accumulates: the sum mod n of
`signs[i]` over the positions of the rate whose message is present. -/
def msgSignSum (msgs : List (Option ℕ)) (signs : List Scalar) : Scalar :=
  (List.range msgs.length).foldl
    (fun acc i =>
      match msgs.getD i none with
      | none => acc
      | some _ => acc + signs.getD i 0) 0

/-- Mirrors `Game.SetOracleSigns`: search the matching rate, sum the
published scalars over its specified positions, check `s·G` against
the rate's key; "rate not found" when the search fails, "illegal
oracle sings" when the check fails, otherwise the fixed rate and its
scalar are stored. -/
def SetOracleSigns (L : ℕ) (krates : List (Rate × Pt)) (att : List Bytes)
    (signs : List Scalar) : Except String ((Rate × Pt) × Scalar) :=
  match searchRateK L krates att with
  | none => .error "rate not found"
  | some rk =>
      let s := msgSignSum rk.1.msgs signs
      if s • G = rk.2 then .ok (rk, s) else .error "illegal oracle sings"

/-- Mirrors the per-position scalar published by `Oracle.Signs`:
`s = (r − H(R,m)·o) mod n`, where `R = r·G` is the nonce point. -/
def oracleSign (o rI : Scalar) (m : Bytes) : Scalar :=
  rI - Hf (rI • G) m * o

/-- Every rate of the generated table carries `length` message
positions. -/
theorem Rates_msgs_length (amount : ℤ) (L : ℕ) (f : ℕ → ℤ) :
    ∀ r ∈ Rates amount L f, r.msgs.length = L := by
  intro r hr
  simp only [Rates, List.mem_append, List.mem_map, List.mem_range] at hr
  rcases hr with (⟨x, _, rfl⟩ | ⟨k, _, rfl⟩) | ⟨k, _, rfl⟩ <;>
    simp [tailMsgs, leMsgs]

/-- The accumulated scalar acts on `G` exactly as the accumulated key,
provided every present position contributes consistently. -/
theorem foldSum_smul (msgs : List (Option ℕ)) (signs : List Scalar)
    (keys : List Pt) (pub : Pt)
    (hterm : ∀ i (b : ℕ), i < msgs.length → msgs.getD i none = some b →
      (signs.getD i 0) • G = Commit Hf (keys.getD i 0) pub [b]) :
    (msgSignSum msgs signs) • G = rateKey Hf keys pub msgs := by
  have aux : ∀ n, n ≤ msgs.length → ∀ accS : Scalar,
      ((List.range n).foldl
        (fun acc i => match msgs.getD i none with
          | none => acc
          | some _ => acc + signs.getD i 0) accS) • G =
      (List.range n).foldl
        (fun acc i => match msgs.getD i none with
          | none => acc
          | some b => acc + Commit Hf (keys.getD i 0) pub [b]) (accS • G) := by
    intro n
    induction n with
    | zero => intro _ accS; simp
    | succ m ih =>
        intro hm accS
        rw [List.range_succ, List.foldl_append, List.foldl_append,
          ← ih (by omega)]
        simp only [List.foldl_cons, List.foldl_nil]
        cases hmm : msgs.getD m none with
        | none => simp only []
        | some b =>
            simp only []
            rw [add_smul, hterm m b (by omega) hmm]
  unfold msgSignSum rateKey
  rw [aux msgs.length le_rfl 0, zero_smul]

/-- C1 (amended): when the oracle keys stored by `SetOracleKeys` are
nonce points `rᵢ·G`, the oracle pubkey is `o·G`, and the published
scalars are `sᵢ = (rᵢ − H(Rᵢ,mᵢ)·o) mod n` over the attested message
bytes, then as soon as some rate of the generated table matches the
attestation, `SetOracleSigns` succeeds, storing for the first matching
rate — the one the search returns — the scalar `s = Σ sᵢ mod n` over
that rate's specified positions, with `s·G` equal to that rate's
adaptor key; and for arbitrary published scalars the call rejects with
"illegal oracle sings" exactly when the accumulated scalar times `G`
differs from the found rate's key. -/
theorem C1_oracle_signs (amount : ℤ) (L : ℕ) (f : ℕ → ℤ)
    (o : Scalar) (rs : List Scalar) (keys : List Pt) (pub : Pt)
    (att : List Bytes) (signs : List Scalar)
    (hK : ∀ i, i < L → keys.getD i 0 = (rs.getD i 0) • G)
    (hpub : pub = o • G)
    (hsig : ∀ i, i < L → signs.getD i 0 =
      oracleSign G Hf o (rs.getD i 0) (att.getD i []))
    (hmatch : ∃ r ∈ Rates amount L f, matchRate L r att = true) :
    ∃ rk, searchRateK L (SetOracleKeys Hf keys pub (Rates amount L f)) att
        = some rk ∧
      rk.2 = rateKey Hf keys pub rk.1.msgs ∧
      matchRate L rk.1 att = true ∧
      (msgSignSum rk.1.msgs signs) • G = rk.2 ∧
      SetOracleSigns G L (SetOracleKeys Hf keys pub (Rates amount L f)) att
          signs = .ok (rk, msgSignSum rk.1.msgs signs) ∧
      ∀ signs2 : List Scalar,
        (SetOracleSigns G L (SetOracleKeys Hf keys pub (Rates amount L f))
            att signs2 = .error "illegal oracle sings" ↔
          ¬ (msgSignSum rk.1.msgs signs2) • G = rk.2) := by
  obtain ⟨r1, hr1, hm1⟩ := hmatch
  have hfs : ((Rates amount L f).find? fun r => matchRate L r att).isSome :=
    List.find?_isSome.mpr ⟨r1, hr1, hm1⟩
  obtain ⟨r0, hfind⟩ := Option.isSome_iff_exists.mp hfs
  have hp0 : matchRate L r0 att = true := by
    have h := List.find?_some hfind
    simpa using h
  have hmem0 : r0 ∈ Rates amount L f := List.mem_of_find?_eq_some hfind
  have hlen0 : r0.msgs.length = L := Rates_msgs_length amount L f r0 hmem0
  have hsearch : searchRateK L (SetOracleKeys Hf keys pub (Rates amount L f))
      att = some (r0, rateKey Hf keys pub r0.msgs) := by
    unfold searchRateK SetOracleKeys
    rw [List.find?_map]
    have : ((fun rk : Rate × Pt => matchRate L rk.1 att) ∘
        fun r => (r, rateKey Hf keys pub r.msgs)) =
        fun r => matchRate L r att := rfl
    rw [this, hfind]
    rfl
  have hLpos : 0 < L := by
    by_contra hc
    have : L = 0 := by omega
    subst this
    simp [matchRate] at hp0
  have hpos : ∀ i, i < L → posMatch r0.msgs att i = true := by
    intro i hiL
    have := (matchDown_iff r0.msgs att (L - 1)).mp ?_ i (by omega)
    · exact this
    · unfold matchRate at hp0
      rw [if_neg (by omega)] at hp0
      exact hp0
  have hterm : ∀ i (b : ℕ), i < r0.msgs.length →
      r0.msgs.getD i none = some b →
      (signs.getD i 0) • G = Commit Hf (keys.getD i 0) pub [b] := by
    intro i b hi hgd
    have hiL : i < L := hlen0 ▸ hi
    have hpm := hpos i hiL
    unfold posMatch at hpm
    rw [hgd] at hpm
    have hattI : att.getD i [] = [b] := ((bseq_iff _ _).mp hpm).symm
    rw [hsig i hiL, hK i hiL, hpub]
    unfold oracleSign Commit
    rw [hattI, sub_smul, mul_smul, neg_smul, sub_eq_add_neg]
  have halg : (msgSignSum r0.msgs signs) • G = rateKey Hf keys pub r0.msgs :=
    foldSum_smul G Hf r0.msgs signs keys pub hterm
  refine ⟨(r0, rateKey Hf keys pub r0.msgs), hsearch, rfl, hp0, halg, ?_, ?_⟩
  · unfold SetOracleSigns
    rw [hsearch]
    simp only [if_pos halg]
  · intro signs2
    unfold SetOracleSigns
    rw [hsearch]
    by_cases hc : (msgSignSum r0.msgs signs2) • G =
        rateKey Hf keys pub r0.msgs
    · simp only [if_pos hc]
      constructor
      · intro h; exact absurd h (by simp)
      · intro h; exact absurd hc h
    · simp only [if_neg hc]
      constructor
      · intro _; exact hc
      · intro _; trivial

end Adaptor

/-- Counterexample to C1 as stated: 2-byte game, fund amount 4, oracle
secret `o = 0` with hash abstracted to the constant 0, nonce scalars
`r₀ = r₁ = 1` (so nonce points `[1, 1]` over `G = 1` in the group
`ZMod n`), attestation bytes `0x05 0x64` with the consistent published
scalars `s₀ = s₁ = 1`.  The linear rate `([0x05, 0x64], 0, 4)` is in
the table and matches the attestation at all its specified positions,
yet `SetOracleSigns` succeeds with the FIRST matching rate — the
first-quarter rate `([nil, 0x64], 0, 4)` — storing the scalar 1, and
`1·G = 1` differs from the linear rate's adaptor key `2`: the stored
scalar does not satisfy `s·G = r.keyP` for every matching rate `r`. -/
theorem C1_counterexample :
    (⟨[some 5, some 100], 0, 4⟩ : Rate) ∈ Rates 4 2 (fun _ => 0) ∧
    matchRate 2 ⟨[some 5, some 100], 0, 4⟩ [[5], [100]] = true ∧
    SetOracleSigns (1 : Scalar) 2
        (SetOracleKeys (fun _ _ => (0 : Scalar)) ([1, 1] : List Scalar) (0 : Scalar)
          (Rates 4 2 fun _ => 0)) [[5], [100]] [1, 1] =
      .ok ((⟨[none, some 100], 0, 4⟩, (1 : Scalar)), (1 : Scalar)) ∧
    ¬ ((1 : Scalar) • (1 : Scalar) =
        rateKey (fun _ _ => (0 : Scalar)) ([1, 1] : List Scalar) (0 : Scalar) [some 5, some 100]) := by
  have hlen : (Rates 4 2 fun _ => 0).length = 65536 := by
    rw [Rates_length]; norm_num
  have hb25605 : (25605 : ℕ) < (Rates 4 2 fun _ => 0).length := by omega
  have hb100 : (100 : ℕ) < (Rates 4 2 fun _ => 0).length := by omega
  have hmid : (Rates 4 2 fun _ => 0)[25605] =
      ⟨[some 5, some 100], 0, 4⟩ := by
    rw [Rates_getElem_mid 4 2 (fun _ => 0) 25605 (by norm_num) (by norm_num)
      (by omega), leMsgs_two]
    norm_num
  have hmem : (⟨[some 5, some 100], 0, 4⟩ : Rate) ∈ Rates 4 2 (fun _ => 0) :=
    hmid ▸ List.getElem_mem _
  have h100 : (Rates 4 2 fun _ => 0)[100] =
      ⟨[none, some 100], 0, 4⟩ := by
    rw [Rates_getElem_low 4 2 (fun _ => 0) 100 (by norm_num) (by omega),
      tailMsgs_two]
  have hfind : (Rates 4 2 fun _ => 0).find?
      (fun r => matchRate 2 r [[5], [100]]) =
      some ⟨[none, some 100], 0, 4⟩ := by
    have h := find?_eq_of_first (fun r => matchRate 2 r [[5], [100]])
      (Rates 4 2 fun _ => 0) 100 (by omega) ?_ ?_
    · rw [h100] at h; exact h
    · intro j hj
      have hbj : j < (Rates 4 2 fun _ => 0).length := by omega
      have hjl : (Rates 4 2 fun _ => 0)[j] =
          ⟨[none, some j], 0, 4⟩ := by
        rw [Rates_getElem_low 4 2 (fun _ => 0) j (by omega) (by omega),
          tailMsgs_two, Nat.mod_eq_of_lt (by omega)]
      rw [hjl]
      show matchRate 2 ⟨[none, some j], 0, 4⟩ [[5], [100]] = false
      rw [← Bool.not_eq_true]
      unfold matchRate
      rw [if_neg (by omega : ¬ (2 : ℕ) = 0)]
      rw [show (2 : ℕ) - 1 = 1 from rfl, matchDown_iff]
      intro hall
      have h1 := hall 1 le_rfl
      unfold posMatch at h1
      have hg : ([none, some j] : List (Option ℕ)).getD 1 none = some j := rfl
      rw [hg] at h1
      have hga : ([[5], [100]] : List Bytes).getD 1 [] = [100] := rfl
      rw [hga] at h1
      rw [bseq_iff] at h1
      simp at h1
      omega
    · rw [h100]; decide
  have hsearchK : searchRateK 2
      (SetOracleKeys (fun _ _ => (0 : Scalar)) ([1, 1] : List Scalar) (0 : Scalar)
        (Rates 4 2 fun _ => 0)) [[5], [100]] =
      some (⟨[none, some 100], 0, 4⟩,
        rateKey (fun _ _ => (0 : Scalar)) ([1, 1] : List Scalar) (0 : Scalar) [none, some 100]) := by
    unfold searchRateK SetOracleKeys
    rw [List.find?_map]
    have hcomp : ((fun rk : Rate × Scalar => matchRate 2 rk.1 [[5], [100]]) ∘
        fun r => (r, rateKey (fun _ _ => (0 : Scalar)) ([1, 1] : List Scalar) (0 : Scalar) r.msgs)) =
        fun r => matchRate 2 r [[5], [100]] := rfl
    rw [hcomp, hfind]
    rfl
  refine ⟨hmem, by decide, ?_, by decide⟩
  unfold SetOracleSigns
  rw [hsearchK]
  dsimp only
  rw [show rateKey (fun _ _ => (0 : Scalar)) ([1, 1] : List Scalar) (0 : Scalar) [none, some 100] =
      (1 : Scalar) from by decide,
    show msgSignSum [none, some 100] [1, 1] = (1 : Scalar) from by decide,
    if_pos (by decide : (1 : Scalar) • (1 : Scalar) = 1)]

/-- Closed witness for the amended C1: 1-byte game, oracle secret 3,
nonce scalar 7, constant hash 2, attested byte 0; the published scalar
is `7 − 2·3 = 1` and the call fixes the matching rate with scalar 1. -/
theorem C1_oracle_signs_witness :
    (∃ r ∈ Rates 4 1 (fun _ => 0), matchRate 1 r [[0]] = true) ∧
    ∃ rk, searchRateK 1 (SetOracleKeys (fun _ _ => (2 : Scalar))
        ([7] : List Scalar) (3 : Scalar) (Rates 4 1 fun _ => 0)) [[0]] = some rk ∧
      rk.2 = rateKey (fun _ _ => (2 : Scalar)) ([7] : List Scalar) (3 : Scalar) rk.1.msgs ∧
      matchRate 1 rk.1 [[0]] = true ∧
      msgSignSum rk.1.msgs [1] • (1 : Scalar) = rk.2 ∧
      SetOracleSigns (1 : Scalar) 1 (SetOracleKeys (fun _ _ => (2 : Scalar))
          ([7] : List Scalar) (3 : Scalar) (Rates 4 1 fun _ => 0)) [[0]] [1] =
        .ok (rk, msgSignSum rk.1.msgs [1]) ∧
      ∀ signs2 : List Scalar,
        (SetOracleSigns (1 : Scalar) 1
            (SetOracleKeys (fun _ _ => (2 : Scalar)) ([7] : List Scalar) (3 : Scalar)
              (Rates 4 1 fun _ => 0)) [[0]] signs2 =
            .error "illegal oracle sings" ↔
          ¬ msgSignSum rk.1.msgs signs2 • (1 : Scalar) = rk.2) := by
  have hlen : (Rates 4 1 fun _ => 0).length = 256 := by
    rw [Rates_length]; norm_num
  have hb0 : (0 : ℕ) < (Rates 4 1 fun _ => 0).length := by omega
  have h0 : (Rates 4 1 fun _ => 0)[0] = ⟨[some 0], 0, 4⟩ := by
    rw [Rates_getElem_low 4 1 (fun _ => 0) 0 (by norm_num) (by omega),
      tailMsgs_one]
  have hmem : (⟨[some 0], 0, 4⟩ : Rate) ∈ Rates 4 1 (fun _ => 0) :=
    h0 ▸ List.getElem_mem _
  have hmatch : ∃ r ∈ Rates 4 1 (fun _ => 0), matchRate 1 r [[0]] = true :=
    ⟨⟨[some 0], 0, 4⟩, hmem, by decide⟩
  refine ⟨hmatch, ?_⟩
  exact C1_oracle_signs (1 : Scalar) (fun _ _ => (2 : Scalar)) 4 1
    (fun _ => 0) 3 [7] [7] 3 [[0]] [1]
    (by intro i hi; obtain rfl : i = 0 := Nat.lt_one_iff.mp hi; decide)
    (by decide)
    (by intro i hi; obtain rfl : i = 0 := Nat.lt_one_iff.mp hi; decide)
    hmatch

end DlcDemo
